import Mathlib

/-!
Verification of the markdown-to-Notion block converter and the title
inference engine of the Youtube_to_Notion repository.

Strings are modelled as `List Char` (ASCII assumed, matching the inputs the
program handles); Python string operations (`strip`, `split`, `startswith`,
`capitalize`, `'\n'.join`, slicing) are given explicit definitions, and the
specific regular expressions used by the source are translated into
dedicated scanning functions whose backtracking behaviour follows Python's
`re` semantics for those concrete patterns (leftmost match, lazy groups,
`.` not matching newline unless DOTALL, greedy `\s+`).

Sources embedded here:
  * `src/src/notion/markdown_converter.py`
      (`convert_markdown_to_notion_blocks`, `process_inline_formatting`)
  * `src/src/pipeline.py`
      (`_capitalize_title`, `_extract_title_from_summary`, the title
       selection step of `process`, lines 209-221)
  * `src/src/extractors/youtube.py` (the generic fallback title shape
      `"YouTube Summary - <id>"`, line 84)
-/

/-- Python whitespace (`str.strip`, regex `\s`) restricted to ASCII:
space, tab, newline, carriage return, vertical tab, form feed. -/
def isWs (c : Char) : Bool :=
  c = ' ' || c = '\t' || c = '\n' || c = '\r' || c = '\x0b' || c = '\x0c'

/-- Python `str.lstrip()`. -/
def pyLStrip (s : List Char) : List Char := s.dropWhile isWs

/-- Python `str.rstrip()`. -/
def pyRStrip (s : List Char) : List Char := (s.reverse.dropWhile isWs).reverse

/-- Python `str.strip()`. -/
def pyStrip (s : List Char) : List Char := pyRStrip (pyLStrip s)

/-- Boolean prefix test, Python `str.startswith`. -/
def isPre : List Char → List Char → Bool
  | [], _ => true
  | _ :: _, [] => false
  | p :: ps, c :: cs => p = c && isPre ps cs

/-- ASCII lowercase of a string, Python `str.lower()`. -/
def toLowerL (s : List Char) : List Char := s.map Char.toLower

/-- Case-insensitive prefix test (used for regexes compiled with
`re.IGNORECASE`). -/
def ciPre : List Char → List Char → Bool
  | [], _ => true
  | _ :: _, [] => false
  | p :: ps, c :: cs => p.toLower = c.toLower && ciPre ps cs

/-- Prepend a character to the first element of a list of strings
(creating a singleton when the list is empty). -/
def consHead (c : Char) : List (List Char) → List (List Char)
  | [] => [[c]]
  | p :: ps => (c :: p) :: ps

/-- Python `markdown_text.split('\n')`: always at least one piece. -/
def splitNL : List Char → List (List Char)
  | [] => [[]]
  | c :: rest => if c = '\n' then [] :: splitNL rest else consHead c (splitNL rest)

/-- Python `'\n'.join(lines)`. -/
def joinNL : List (List Char) → List Char
  | [] => []
  | [l] => l
  | l :: ls => l ++ '\n' :: joinNL ls

/-- Python `' '.join(words)`. -/
def joinSpace : List (List Char) → List Char
  | [] => []
  | [w] => w
  | w :: ws => w ++ ' ' :: joinSpace ws

/-- Python `str.split()` (no argument): split on whitespace runs,
discarding empty pieces.  `acc` holds the current word reversed. -/
def pySplitGo (acc : List Char) : List Char → List (List Char)
  | [] => if acc = [] then [] else [acc.reverse]
  | c :: rest =>
    if isWs c then
      if acc = [] then pySplitGo [] rest else acc.reverse :: pySplitGo [] rest
    else pySplitGo (c :: acc) rest

def pySplit (s : List Char) : List (List Char) := pySplitGo [] s

/-- Python `str.capitalize()`: first character uppercased, the rest
lowercased (ASCII). -/
def pyCapitalize : List Char → List Char
  | [] => []
  | c :: rest => c.toUpper :: rest.map Char.toLower

/-! ## Inline formatting: `process_inline_formatting`
(`markdown_converter.py` lines 128-169)

The Python function runs `re.finditer(r'(\*\*|__)(.*?)(\1)', text)` and
builds rich-text spans: a plain span for each non-empty gap between
matches, a bold span for each match's lazily captured inner text, a plain
span for any trailing text, and a single plain span holding the whole
input when there is no match (even when the input is empty).

We record the scan as a list of tokens (`raw` text outside matches,
`bolded` matches remembering which delimiter character matched), and the
span list is the per-token image of that scan.  This factoring is what the
Python loop computes with its `last_end` cursor. -/

inductive Span where
  | plain (text : List Char)
  | bold (text : List Char)
deriving DecidableEq, Repr

inductive Tok where
  | raw (text : List Char)
  | bolded (delim : Char) (inner : List Char)
deriving DecidableEq, Repr

/-- The spans a token contributes (each token yields exactly one span). -/
def tokSpans : Tok → List Span
  | .raw t => [.plain t]
  | .bolded _ i => [.bold i]

/-- Re-create the exact source text of a token (matched delimiters
re-inserted around bold matches). -/
def tokFlatten : Tok → List Char
  | .raw t => t
  | .bolded d i => d :: d :: (i ++ d :: d :: [])

/-- The text of a token with matched delimiter pairs removed. -/
def tokStrip : Tok → List Char
  | .raw t => t
  | .bolded _ i => i

def tokensFlatten (ts : List Tok) : List Char := ts.flatMap tokFlatten

def tokensStrip (ts : List Tok) : List Char := ts.flatMap tokStrip

def Tok.isBolded : Tok → Bool
  | .raw _ => false
  | .bolded _ _ => true

/-- Delimiter characters of the bold tokens, in order. -/
def boldDelims (ts : List Tok) : List Char :=
  ts.filterMap fun t => match t with
    | .raw _ => none
    | .bolded d _ => some d

/-- Concatenation of the `text` fields of a span list. -/
def spanConcat (spans : List Span) : List Char :=
  spans.flatMap fun sp => match sp with
    | .plain t => t
    | .bold t => t

/-- Lazy search for the closing delimiter `d d` of a bold match: the
regex group `(.*?)` (which cannot cross a newline, DOTALL is off)
followed by the backreference `(\1)`.  Returns the captured inner text
and the text after the closing delimiter, choosing the earliest closing
position (lazy match). -/
def findClose (d : Char) : List Char → Option (List Char × List Char)
  | c :: e :: rest =>
    if c = d ∧ e = d then some ([], rest)
    else if c = '\n' then none
    else
      match findClose d (e :: rest) with
      | some (i, r) => some (c :: i, r)
      | none => none
  | _ => none

/-- The `re.finditer(r'(\*\*|__)(.*?)(\1)', text)` scan.  At each
position the alternation tries `**` then `__`; a successful match
consumes through its closing delimiter, otherwise the scan advances one
character.  `pre` accumulates the gap text since the last match end
(Python's `last_end` cursor); a gap is emitted only when non-empty,
exactly as the Python loop guards `match.start() > last_end` and
`last_end < len(text)`.  `fuel` is an upper bound on the number of
characters left; it only makes the recursion structural, every call site
supplies at least `cs.length`, which is always enough (the scan consumes
at least one character per step). -/
def scanTokF : Nat → List Char → List Char → List Tok
  | _, pre, [] => if pre = [] then [] else [.raw pre]
  | 0, pre, _ :: _ => if pre = [] then [] else [.raw pre]
  | f + 1, pre, c :: rest =>
    if c = '*' ∧ rest.head? = some '*' then
      match findClose '*' rest.tail with
      | some (inner, after) =>
        (if pre = [] then [] else [.raw pre]) ++ .bolded '*' inner :: scanTokF f [] after
      | none => scanTokF f (pre ++ [c]) rest
    else if c = '_' ∧ rest.head? = some '_' then
      match findClose '_' rest.tail with
      | some (inner, after) =>
        (if pre = [] then [] else [.raw pre]) ++ .bolded '_' inner :: scanTokF f [] after
      | none => scanTokF f (pre ++ [c]) rest
    else scanTokF f (pre ++ [c]) rest

/-- The token decomposition of `text` computed by the `finditer` loop. -/
def scanTok (cs : List Char) : List Tok := scanTokF cs.length [] cs

/-- Definition of `process_inline_formatting` (`markdown_converter.py` lines 128-169):
spans of the token scan, with the final fallback `if not result:
result.append({"type": "text", "text": {"content": text}})`. -/
def process_inline_formatting (cs : List Char) : List Span :=
  let r := (scanTok cs).flatMap tokSpans
  if r = [] then [.plain cs] else r

/-! ## The block converter: `convert_markdown_to_notion_blocks`
(`markdown_converter.py` lines 5-125) -/

/-- One structural unit of the destination document, carrying exactly the
content the Python dicts carry: the block type, its rich-text spans, and
for code blocks the language label and the verbatim joined code text
(which the Python code stores as a single rich-text span). -/
inductive Block where
  | heading (level : Nat) (rich : List Span)
  | bulleted (rich : List Span)
  | numbered (rich : List Span)
  | quote (rich : List Span)
  | code (language : List Char) (content : List Char)
  | divider
  | paragraph (rich : List Span)
deriving DecidableEq, Repr

/-- Model of `re.match(r'^(#{1,3})\s+(.+)$', line)`: with backtracking, the hash
group must take the entire leading run of `#` (a shorter take leaves `#`
as the next character, failing `\s+`), a run of 4 or more never matches,
then `\s+` greedily eats the whitespace run and `(.+)$` captures the
rest, which must be non-empty.  Returns the heading level and content. -/
def headerMatch (line : List Char) : Option (Nat × List Char) :=
  let n := (line.takeWhile (· = '#')).length
  if 1 ≤ n ∧ n ≤ 3 then
    let rest := line.drop n
    if rest.takeWhile isWs ≠ [] ∧ rest.dropWhile isWs ≠ [] then
      some (n, rest.dropWhile isWs)
    else none
  else none

/-- Model of `re.match(r'^(\d+)\.\s+(.+)$', line)`: the digit group takes the
entire leading digit run (shorter takes leave a digit where `\.` is
required), then a literal dot, greedy whitespace, non-empty content.
Only the content group is used by the converter. -/
def numberedMatch (line : List Char) : Option (List Char) :=
  let ds := line.takeWhile (·.isDigit)
  if ds ≠ [] then
    match line.drop ds.length with
    | '.' :: rest =>
      if rest.takeWhile isWs ≠ [] ∧ rest.dropWhile isWs ≠ [] then
        some (rest.dropWhile isWs)
      else none
    | _ => none
  else none

/-- The literal "```" fence marker. -/
def bt3 : List Char := '\x60' :: '\x60' :: '\x60' :: []

/-- The code-fence inner loop (`markdown_converter.py` lines 88-93):
collect original (untrimmed) lines until one whose stripped form starts
with "```"; that closing line is skipped.  Returns the captured code
lines and the remaining lines after the region. -/
def splitCode : List (List Char) → List (List Char) × List (List Char)
  | [] => ([], [])
  | l :: ls =>
    if isPre bt3 (pyStrip l) then ([], ls)
    else
      let p := splitCode ls
      (l :: p.1, p.2)

/-- The label used when the fence declares no language. -/
def plainTextL : List Char := "plain text".data

/-- The main conversion loop over the lines of the input
(`markdown_converter.py` lines 14-123), one step per iteration: strip the
line; skip blanks; then try, in the source's order: heading, bulleted
item, numbered item, blockquote, code fence, divider, and finally the
paragraph default.  `fuel` bounds the number of remaining lines and only
makes the recursion structural: every call site supplies at least
`ls.length` which is always sufficient (each step consumes at least one
line; the `0, _ :: _` case is unreachable from such call sites). -/
def convertLinesF : Nat → List (List Char) → List Block
  | _, [] => []
  | 0, _ :: _ => []
  | f + 1, l :: ls =>
    let line := pyStrip l
    if line = [] then convertLinesF f ls
    else
      match headerMatch line with
      | some lc => .heading lc.1 (process_inline_formatting lc.2) :: convertLinesF f ls
      | none =>
        if isPre ('-' :: ' ' :: []) line ∨ isPre ('*' :: ' ' :: []) line then
          .bulleted (process_inline_formatting (line.drop 2)) :: convertLinesF f ls
        else
          match numberedMatch line with
          | some content => .numbered (process_inline_formatting content) :: convertLinesF f ls
          | none =>
            if isPre ('>' :: []) line then
              .quote (process_inline_formatting (pyStrip (line.drop 1))) :: convertLinesF f ls
            else if isPre bt3 line then
              let lang := pyStrip (line.drop 3)
              let p := splitCode ls
              .code (if lang = [] then plainTextL else lang) (joinNL p.1) ::
                convertLinesF f p.2
            else if line = "---".data ∨ line = "___".data ∨ line = "***".data then
              .divider :: convertLinesF f ls
            else
              .paragraph (process_inline_formatting line) :: convertLinesF f ls

def convertLines (ls : List (List Char)) : List Block := convertLinesF ls.length ls

/-- Definition of `convert_markdown_to_notion_blocks` (`markdown_converter.py` lines
5-125): split the input on newlines and run the conversion loop. -/
def convert_markdown_to_notion_blocks (s : String) : List Block :=
  convertLines (splitNL s.data)

/-! ## Title case normalization: `_capitalize_title`
(`pipeline.py` lines 60-99) -/

/-- Python `string.punctuation`. -/
def punctuation : List Char :=
  "!\"#$%&'()*+,-./:;<=>?@[\\]^".data ++ '_' :: '\x60' :: '\x7b' :: '|' :: '\x7d' :: '~' :: []

/-- The closed minor-word set of `_capitalize_title`. -/
def lowercaseWords : List (List Char) :=
  ["a".data, "an".data, "the".data, "and".data, "but".data, "or".data,
   "for".data, "nor".data, "on".data, "at".data, "to".data, "from".data,
   "by".data, "in".data, "of".data, "with".data, "as".data]

/-- Python `word[0] in string.punctuation` (words produced by `str.split()` are
never empty, so the head default is never consulted). -/
def headIsPunct (w : List Char) : Bool :=
  match w with
  | [] => false
  | c :: _ => c ∈ punctuation

def ellipsisL : List Char := "...".data

/-- Python `s.endswith('...')`. -/
def endsWithEllipsis (s : List Char) : Bool := isPre ellipsisL.reverse s.reverse

/-- Python `s.rstrip('.')`. -/
def rstripDots (s : List Char) : List Char := (s.reverse.dropWhile (· = '.')).reverse

/-- The per-word transformation of `_capitalize_title`: the Python code
sets `words[0]` and `words[-1]` to their capitalizations and then walks
the interior indices `1 .. len-2`, so the three index ranges are disjoint
and the updates are equivalently a single indexed map. -/
def capWord (n i : Nat) (w : List Char) : List Char :=
  if i = 0 ∨ i = n - 1 then pyCapitalize w
  else if toLowerL w ∈ lowercaseWords ∧ ¬ headIsPunct w then toLowerL w
  else pyCapitalize w

/-- Definition of `_capitalize_title` (`pipeline.py` lines 60-99): empty titles are
returned unchanged; so are titles whose `split()` yields no words;
otherwise capitalize first/last words, lowercase interior minor words not
starting with punctuation, capitalize other interior words, rejoin with
single spaces, and restore a trailing literal ellipsis. -/
def _capitalize_title (t : List Char) : List Char :=
  if t = [] then t
  else
    let words := pySplit t
    if words = [] then t
    else
      let j := joinSpace (words.mapIdx fun i w => capWord words.length i w)
      if endsWithEllipsis t then rstripDots j ++ ellipsisL else j

/-- Modelled from the spec's words for claim C6 ("Title Case
Normalization"): empty input unchanged; otherwise the title is split on
whitespace and rejoined with single spaces, first and last words
capitalized, interior minor words (not starting with punctuation)
lowercased, other interior words capitalized, and a trailing literal
ellipsis restored.  Unlike the source, this has no special case for a
non-empty title with no words (a whitespace-only title): the claim's
split-and-rejoin description sends those to the empty string. -/
def specTitleCase (t : List Char) : List Char :=
  if t = [] then t
  else
    let words := pySplit t
    let j := joinSpace (words.mapIdx fun i w => capWord words.length i w)
    if endsWithEllipsis t then rstripDots j ++ ellipsisL else j

/-! ## Summary title extraction: `_extract_title_from_summary`
(`pipeline.py` lines 101-172)

Each of the ten patterns, the overview-section regex, the sentence split
and the quoted-text search is translated as a dedicated scanner following
Python `re` backtracking for that concrete pattern. -/

def isQuote (c : Char) : Bool := c = '"' || c = '\''

/-- Match `(.+?)["\']` at the start: the lazily captured inner text (at
least one character, `.` does not cross newlines) up to the earliest
closing quote.  Returns the inner text and the text after the close. -/
def quotedInner : List Char → Option (List Char × List Char)
  | [] => none
  | [_] => none
  | c :: d :: rest =>
    if c = '\n' then none
    else if isQuote d then some ([c], rest)
    else
      match quotedInner (d :: rest) with
      | some (i, r) => some (c :: i, r)
      | none => none

/-- Match `["\'](.+?)["\']` at the start of the text. -/
def quotedAt (s : List Char) : Option (List Char) :=
  match s with
  | c :: rest => if isQuote c then (quotedInner rest).map (·.1) else none
  | [] => none

/-- Model of `re.search(r'["\'](.+?)["\']', s)`: leftmost opening quote from which
a close is reachable. -/
def quotedSearch : List Char → Option (List Char)
  | [] => none
  | c :: rest =>
    if isQuote c then
      match quotedInner rest with
      | some (i, _) => some i
      | none => quotedSearch rest
    else quotedSearch rest

/-- Match `(.+?)lit` at the start (case-insensitive literal): the lazily
captured inner text (at least one character, no newline) up to the
earliest occurrence of `lit`.  Returns inner and the text after `lit`. -/
def lazyUntilLit (lit : List Char) : List Char → Option (List Char × List Char)
  | [] => none
  | c :: rest =>
    if c = '\n' then none
    else if ciPre lit rest then some ([c], rest.drop lit.length)
    else
      match lazyUntilLit lit rest with
      | some (i, r) => some (c :: i, r)
      | none => none

/-- Match `(.+?)["\']lit` at the start (after an opening quote): lazily
captured inner text to the earliest closing quote that is immediately
followed by the case-insensitive literal `lit`. -/
def quotedThenLit (lit : List Char) : List Char → Option (List Char)
  | [] => none
  | [_] => none
  | c :: d :: rest =>
    if c = '\n' then none
    else if isQuote d ∧ ciPre lit rest then some [c]
    else
      match quotedThenLit lit (d :: rest) with
      | some i => some (c :: i)
      | none => none

/-- Model of `re.search` for a pattern `lit["\'](.+?)["\']` with `re.IGNORECASE`:
scan for the leftmost position where the literal matches and the quoted
group completes. -/
def searchLitQuoted (lit : List Char) : List Char → Option (List Char)
  | [] => none
  | c :: rest =>
    if ciPre lit (c :: rest) then
      match quotedAt ((c :: rest).drop lit.length) with
      | some i => some i
      | none => searchLitQuoted lit rest
    else searchLitQuoted lit rest

/-- Model of `re.search(r'# (.+?) Summary', s, re.IGNORECASE)`: leftmost `"# "`
from which a lazy group reaches `" Summary"`. -/
def searchHashLazy : List Char → Option (List Char)
  | [] => none
  | [_] => none
  | c :: d :: rest =>
    if c = '#' ∧ d = ' ' then
      match lazyUntilLit " summary".data rest with
      | some (i, _) => some i
      | none => searchHashLazy (d :: rest)
    else searchHashLazy (d :: rest)

/-- Model of `re.search(r'["\'](.+?)["\'] lit', s, re.IGNORECASE)`: leftmost
opening quote whose lazy group reaches a quote followed by `lit`. -/
def searchQuotedLit (lit : List Char) : List Char → Option (List Char)
  | [] => none
  | c :: rest =>
    if isQuote c then
      match quotedThenLit lit rest with
      | some i => some i
      | none => searchQuotedLit lit rest
    else searchQuotedLit lit rest

/-- The ordered ten-pattern loop of `_extract_title_from_summary`
(`pipeline.py` lines 104-115, replayed at lines 122-126 and 162-165):
first pattern to match wins, returning its captured group. -/
def tryPatterns (s : List Char) : Option (List Char) :=
  match searchLitQuoted "summary of ".data s with
  | some m => some m
  | none =>
  match searchHashLazy s with
  | some m => some m
  | none =>
  match searchLitQuoted "# summary of ".data s with
  | some m => some m
  | none =>
  match (lazyUntilLit " video summary".data s).map (·.1) with
  | some m => some m
  | none =>
  match searchQuotedLit " video".data s with
  | some m => some m
  | none =>
  match searchLitQuoted "overview of ".data s with
  | some m => some m
  | none =>
  match searchLitQuoted "overview of the ".data s with
  | some m => some m
  | none =>
  match searchLitQuoted "from ".data s with
  | some m => some m
  | none =>
  match searchLitQuoted "titled ".data s with
  | some m => some m
  | none => searchLitQuoted "called ".data s

/-- The group of `re.search(r'## Overview\s+(.+?)(?=##|\Z)', s,
re.DOTALL)` at a position where the literal `"## Overview"` has just
matched, `t` being the remaining text.  Backtracking order: `\s+` is
greedy, then `(.+?)` grows lazily until the lookahead sees `"##"` or the
end.  With `W` the maximal whitespace prefix and `u` the rest: no
whitespace means no match; if `u` is non-empty the group is `u` up to
(excluding) the first occurrence of `"##"` at an index at least 1, or all
of `u`; if `u` is empty, `\s+` backtracks one character and the group is
the last whitespace character (needing `|W| >= 2`). -/
def overviewBody (t : List Char) : Option (List Char) :=
  let W := t.takeWhile isWs
  let u := t.dropWhile isWs
  if W = [] then none
  else
    match u with
    | [] =>
      match W.reverse with
      | c :: _ :: _ => some [c]
      | _ => none
    | c :: urest => some (c :: stopAtHH urest)
where
  /-- Take characters until the remaining text starts with `"##"`. -/
  stopAtHH : List Char → List Char
  | [] => []
  | c :: rest =>
    if c = '#' ∧ rest.head? = some '#' then []
    else c :: stopAtHH rest

/-- Model of `re.search` for the overview pattern: leftmost occurrence of the
literal `"## Overview"` (case-sensitive, this regex has no IGNORECASE)
from which the rest of the pattern completes. -/
def findOverview : List Char → Option (List Char)
  | [] => none
  | c :: rest =>
    if isPre "## Overview".data (c :: rest) then
      match overviewBody ((c :: rest).drop 11) with
      | some g => some g
      | none => findOverview rest
    else findOverview rest

/-- Model of `re.split(r'(?<=[.!?])\s+', text)`: split at every whitespace run
immediately preceded by `.`, `!` or `?`.  `sep` is true while consuming a
separator's (greedy) whitespace run; `prev` is the previous character
(the lookbehind can never fire at position 0). -/
def sentSplitGo (sep : Bool) (prev : Char) : List Char → List (List Char)
  | [] => [[]]
  | c :: rest =>
    if sep then
      if isWs c then sentSplitGo true c rest
      else consHead c (sentSplitGo false c rest)
    else if isWs c ∧ (prev = '.' ∨ prev = '!' ∨ prev = '?') then
      [] :: sentSplitGo true c rest
    else consHead c (sentSplitGo false c rest)

def sentSplit : List Char → List (List Char)
  | [] => [[]]
  | c :: rest => consHead c (sentSplitGo false c rest)

/-- The verb alternation of the "This video (...)" and "The video (...)"
lead-in patterns, in the source's order. -/
def videoVerbs : List (List Char) :=
  ["discusses".data, "explores".data, "presents".data, "is about".data,
   "covers".data, "focuses on".data, "examines".data, "talks about".data,
   "provides".data, "offers".data]

/-- The verb alternation of the "The speaker (...)" lead-in pattern. -/
def speakerVerbs : List (List Char) :=
  ["discusses".data, "explores".data, "presents".data, "talks about".data,
   "covers".data, "focuses on".data, "examines".data, "provides".data,
   "offers".data]

/-- Model of `re.sub(r'^lead(verb1|verb2|...)', '', s, re.IGNORECASE)` for the
anchored lead-in patterns: if the lead matches at the start and some verb
of the alternation (first in source order wins; the alternatives are
mutually exclusive prefixes here) follows, drop the matched prefix. -/
def stripLeadVerb (lead : List Char) (verbs : List (List Char)) (s : List Char) : List Char :=
  if ciPre lead s then
    let r := s.drop lead.length
    match verbs.find? (fun v => ciPre v r) with
    | some v => r.drop v.length
    | none => s
  else s

/-- Model of `re.sub(r'^In this video,?\s+', '', s, re.IGNORECASE)`: optional
comma (tried first, `,?` is greedy), then at least one whitespace
character, greedily consumed. -/
def stripInThisVideo (s : List Char) : List Char :=
  if ciPre "in this video".data s then
    let r := s.drop 13
    let t := match r with
      | ',' :: t => t
      | _ => r
    if t.takeWhile isWs ≠ [] then t.dropWhile isWs else s
  else s

/-- The `phrases_to_remove` loop (`pipeline.py` lines 140-148): each
anchored pattern is substituted away in turn, stripping after each. -/
def cleanSentence (s : List Char) : List Char :=
  let s1 := pyStrip (stripLeadVerb "this video ".data videoVerbs s)
  let s2 := pyStrip (stripInThisVideo s1)
  let s3 := pyStrip (stripLeadVerb "the video ".data videoVerbs s2)
  pyStrip (stripLeadVerb "the speaker ".data speakerVerbs s3)

/-- The first-sentence heuristic of the overview branch (`pipeline.py`
lines 130-158) applied to `sentences[0]`: prefer a quoted substring;
otherwise remove lead-in phrases and truncate to the first 7 words with a
trailing `"..."` when more than 7 words remain out of more than 3. -/
def sentenceTitle (s0 : List Char) : List Char :=
  let first := pyStrip s0
  match quotedSearch first with
  | some q => _capitalize_title (pyStrip q)
  | none =>
    let cleaned := cleanSentence first
    let words := pySplit cleaned
    if words.length > 3 then
      _capitalize_title
        (joinSpace (words.take 7) ++ (if words.length ≤ 7 then [] else ellipsisL))
    else _capitalize_title cleaned

/-- Model of `re.search(r'## (.*?)(?=\n|$)', summary)`: at the leftmost `"## "`
the lazy group always completes, capturing up to the next newline or the
end. -/
def h2Search : List Char → Option (List Char)
  | [] => none
  | c :: rest =>
    if isPre "## ".data (c :: rest) then
      some (((c :: rest).drop 3).takeWhile (· ≠ '\n'))
    else h2Search rest

/-- The fallback chain of `_extract_title_from_summary` outside the
overview branch (`pipeline.py` lines 160-172): the ten patterns against
the whole summary, then the first level-2 heading unless it is literally
"Overview" (case-insensitively), else `None`. -/
def extractFallback (summary : List Char) : Option (List Char) :=
  match tryPatterns summary with
  | some m => some (_capitalize_title (pyStrip m))
  | none =>
    match h2Search summary with
    | some g =>
      if toLowerL g ≠ "overview".data then some (_capitalize_title (pyStrip g))
      else none
    | none => none

/-- The overview branch (`pipeline.py` lines 119-158), given the matched
group `g`: try the ten patterns inside the stripped section text, then
the first-sentence heuristic.  The `[]` case mirrors the Python
fall-through when `sentences` is empty, which never happens
(`sentSplit_ne_nil`): `re.split` always returns at least one piece. -/
def overviewBranch (summary g : List Char) : Option (List Char) :=
  let overview_text := pyStrip g
  match tryPatterns overview_text with
  | some m => some (_capitalize_title (pyStrip m))
  | none =>
    match sentSplit overview_text with
    | s0 :: _ => some (sentenceTitle s0)
    | [] => extractFallback summary

/-- Definition of `_extract_title_from_summary` (`pipeline.py` lines 101-172).
`none` models Python's `None` ("no title found"), distinct from a
successfully extracted empty title `some []`. -/
def _extract_title_from_summary (summary : List Char) : Option (List Char) :=
  match findOverview summary with
  | some g => overviewBranch summary g
  | none => extractFallback summary

/-! ## The title selection step of `process` (`pipeline.py` lines 209-221) -/

/-- The generic placeholder prefix produced by the metadata fallback of
`get_video_info` (`youtube.py` line 84: `f"YouTube Summary -
{self.video_id}"`), tested with `startswith` in `process`. -/
def genericPrefix : List Char := "YouTube Summary - ".data

/-- Python `any(char.isupper() for char in youtube_title[1:])`. -/
def anyUpperTail (t : List Char) : Bool := (t.drop 1).any (·.isUpper)

/-- The guard of the first branch: the platform title is used directly
exactly when it is non-empty and does not start with the generic
placeholder prefix. -/
def usesPlatformTitle (t : List Char) : Bool :=
  decide (t ≠ []) && !isPre genericPrefix t

/-- The title selection step of `process` (`pipeline.py` lines 209-221):
a non-empty, non-generic platform title is kept (capitalized when it has
no uppercase letter past its first character); otherwise the title
extracted from the summary replaces the record's title only when it is
truthy (the walrus `elif extracted_title := ...` treats both `None` and
the empty string as failure to replace); in every other case the
record's title field is left unchanged. -/
def inferTitle (t s : List Char) : List Char :=
  if usesPlatformTitle t then
    if ¬ anyUpperTail t then _capitalize_title t else t
  else
    match _extract_title_from_summary s with
    | some x => if x ≠ [] then x else t
    | none => t

/-! ## Verification-layer definitions -/

/-- The block built for a non-blank line that does not open a code
fence: the heading / bulleted / numbered / quote / divider / paragraph
cascade of the conversion loop, in source order. -/
def unitBlock (line : List Char) : Block :=
  match headerMatch line with
  | some lc => .heading lc.1 (process_inline_formatting lc.2)
  | none =>
    if isPre ('-' :: ' ' :: []) line ∨ isPre ('*' :: ' ' :: []) line then
      .bulleted (process_inline_formatting (line.drop 2))
    else
      match numberedMatch line with
      | some content => .numbered (process_inline_formatting content)
      | none =>
        if isPre ('>' :: []) line then
          .quote (process_inline_formatting (pyStrip (line.drop 1)))
        else if line = "---".data ∨ line = "___".data ∨ line = "***".data then
          .divider
        else
          .paragraph (process_inline_formatting line)

/-- The code block built for a fence-opening line `line` (already
stripped) with remaining lines `ls`. -/
def fenceBlock (line : List Char) (ls : List (List Char)) : Block :=
  let lang := pyStrip (line.drop 3)
  Block.code (if lang = [] then plainTextL else lang) (joinNL (splitCode ls).1)

/-- The unit counts of claim C1, as one forward scan with an
inside-a-fence flag: the first component counts non-blank lines lying
outside fenced code regions (fence-opening and fence-closing lines not
included), the second counts fenced code regions (closed or not). -/
def countUnitsAux : Bool → List (List Char) → Nat × Nat
  | _, [] => (0, 0)
  | true, l :: ls =>
    if isPre bt3 (pyStrip l) then countUnitsAux false ls
    else countUnitsAux true ls
  | false, l :: ls =>
    if pyStrip l = [] then countUnitsAux false ls
    else if isPre bt3 (pyStrip l) then
      let p := countUnitsAux true ls
      (p.1, p.2 + 1)
    else
      let p := countUnitsAux false ls
      (p.1 + 1, p.2)

/-- Re-insert bold markers around the bold spans of a span list,
consuming one delimiter character per bold span, and concatenate. -/
def reinsertBold : List Char → List Span → List Char
  | _, [] => []
  | ds, .plain t :: rest => t ++ reinsertBold ds rest
  | d :: ds, .bold t :: rest => d :: d :: (t ++ d :: d :: reinsertBold ds rest)
  | [], .bold t :: rest => t ++ reinsertBold [] rest

/-! ## Basic lemmas -/

theorem splitCode_snd_length_le (ls : List (List Char)) :
    (splitCode ls).2.length ≤ ls.length := by
  induction ls with
  | nil => simp [splitCode]
  | cons l ls ih =>
    simp only [splitCode]
    split
    · simp
    · simpa using Nat.le_succ_of_le ih

theorem findClose_eq (d : Char) :
    ∀ cs i r, findClose d cs = some (i, r) → cs = i ++ d :: d :: r := by
  intro cs
  induction cs with
  | nil => intro i r h; simp [findClose] at h
  | cons c cs ih =>
    intro i r h
    cases cs with
    | nil => simp [findClose] at h
    | cons e rest =>
      simp only [findClose] at h
      split at h
      · rename_i hde
        obtain ⟨rfl, rfl⟩ := Prod.mk.injEq .. ▸ Option.some.injEq .. ▸ h
        obtain ⟨rfl, rfl⟩ := hde
        simp
      · split at h
        · exact absurd h (by simp)
        · rename_i hne hnl
          cases hfc : findClose d (e :: rest) with
          | none => rw [hfc] at h; simp at h
          | some p =>
            rw [hfc] at h
            obtain ⟨i', r'⟩ := p
            simp only [Option.some.injEq, Prod.mk.injEq] at h
            obtain ⟨rfl, rfl⟩ := h
            have := ih i' r' hfc
            simp [← this]

theorem isPre_bt3_head (line : List Char) (h : isPre bt3 line = true) :
    ∃ t, line = '\x60' :: t := by
  cases line with
  | nil => simp [isPre, bt3] at h
  | cons c t =>
    simp only [bt3, isPre, Bool.and_eq_true, decide_eq_true_eq] at h
    exact ⟨t, by rw [h.1]⟩

theorem isPre_bt3_false_of_head (c : Char) (t : List Char) (h : c ≠ '\x60') :
    isPre bt3 (c :: t) = false := by
  have hc : ('\x60' = c) = False := by
    simp only [eq_iff_iff, iff_false]
    exact fun h' => h h'.symm
  simp [isPre, bt3, hc]

theorem headerMatch_head (line : List Char) (x : Nat × List Char)
    (h : headerMatch line = some x) : ∃ t, line = '#' :: t := by
  cases line with
  | nil => simp [headerMatch, List.takeWhile] at h
  | cons c t =>
    by_cases hc : c = '#'
    · exact ⟨t, by rw [hc]⟩
    · simp [headerMatch, List.takeWhile, hc] at h

theorem numberedMatch_head (line : List Char) (x : List Char)
    (h : numberedMatch line = some x) : ∃ c t, line = c :: t ∧ c.isDigit = true := by
  cases line with
  | nil => simp [numberedMatch, List.takeWhile] at h
  | cons c t =>
    by_cases hc : c.isDigit
    · exact ⟨c, t, rfl, hc⟩
    · simp [numberedMatch, List.takeWhile, hc] at h

/-- One step of the conversion loop, classified: skip a blank line, emit
a code block for a fence opener, emit exactly one block otherwise. -/
theorem convertLinesF_cons (f : Nat) (l : List Char) (ls : List (List Char)) :
    convertLinesF (f + 1) (l :: ls) =
      if pyStrip l = [] then convertLinesF f ls
      else if isPre bt3 (pyStrip l) then
        fenceBlock (pyStrip l) ls :: convertLinesF f (splitCode ls).2
      else unitBlock (pyStrip l) :: convertLinesF f ls := by
  by_cases hb : pyStrip l = []
  · simp [convertLinesF, hb]
  · by_cases hf : isPre bt3 (pyStrip l) = true
    · obtain ⟨t, ht⟩ := isPre_bt3_head _ hf
      have hh : headerMatch (pyStrip l) = none := by
        rw [ht]; simp [headerMatch, List.takeWhile]
      have hbul : (isPre ('-' :: ' ' :: []) (pyStrip l) ∨ isPre ('*' :: ' ' :: []) (pyStrip l)) ↔ False := by
        rw [ht]; simp [isPre]
      have hn : numberedMatch (pyStrip l) = none := by
        rw [ht]; simp [numberedMatch, List.takeWhile]
      have hq : isPre ('>' :: []) (pyStrip l) = false := by
        rw [ht]; simp [isPre]
      simp [convertLinesF, hb, hh, hbul, hn, hq, hf, fenceBlock]
    · simp only [convertLinesF, hb, if_neg hb, hf, if_false]
      rw [unitBlock]
      cases hh : headerMatch (pyStrip l) with
      | some lc => simp [hh]
      | none =>
        simp only [hh]
        by_cases hbul : (isPre ('-' :: ' ' :: []) (pyStrip l) = true) ∨ (isPre ('*' :: ' ' :: []) (pyStrip l) = true)
        · simp [hbul]
        · simp only [if_neg hbul]
          cases hn : numberedMatch (pyStrip l) with
          | some content => simp [hn]
          | none =>
            simp only [hn]
            by_cases hq : isPre ('>' :: []) (pyStrip l) = true
            · simp [hq]
            · simp only [Bool.not_eq_true] at hq
              simp only [hq, hf, Bool.false_eq_true, if_false]
              split <;> rfl

/-- The fuel argument of the conversion loop is irrelevant as long as it
covers the number of lines. -/
theorem convertLinesF_irrel :
    ∀ f g ls, ls.length ≤ f → ls.length ≤ g → convertLinesF f ls = convertLinesF g ls := by
  intro f
  induction f with
  | zero =>
    intro g ls hf _
    have : ls = [] := List.length_eq_zero.mp (Nat.le_zero.mp hf)
    subst this
    cases g <;> simp [convertLinesF]
  | succ f ih =>
    intro g ls hf hg
    cases ls with
    | nil => cases g <;> simp [convertLinesF]
    | cons l tail =>
      cases g with
      | zero => simp at hg
      | succ g =>
        have ht : tail.length ≤ f := by simpa using hf
        have ht' : tail.length ≤ g := by simpa using hg
        have hs : (splitCode tail).2.length ≤ f := le_trans (splitCode_snd_length_le tail) ht
        have hs' : (splitCode tail).2.length ≤ g := le_trans (splitCode_snd_length_le tail) ht'
        rw [convertLinesF_cons, convertLinesF_cons]
        rw [ih g tail ht ht', ih g (splitCode tail).2 hs hs']

theorem convertLines_cons (l : List Char) (ls : List (List Char)) :
    convertLines (l :: ls) =
      if pyStrip l = [] then convertLines ls
      else if isPre bt3 (pyStrip l) then
        fenceBlock (pyStrip l) ls :: convertLines (splitCode ls).2
      else unitBlock (pyStrip l) :: convertLines ls := by
  have h2 : convertLinesF ls.length (splitCode ls).2 = convertLines (splitCode ls).2 :=
    convertLinesF_irrel ls.length (splitCode ls).2.length (splitCode ls).2
      (splitCode_snd_length_le ls) le_rfl
  show convertLinesF (ls.length + 1) (l :: ls) = _
  rw [convertLinesF_cons, h2]
  rfl

/-- Inside a fence region the unit scan resumes after the region. -/
theorem countUnitsAux_true (ls : List (List Char)) :
    countUnitsAux true ls = countUnitsAux false (splitCode ls).2 := by
  induction ls with
  | nil => simp [countUnitsAux, splitCode]
  | cons l ls ih =>
    simp only [countUnitsAux, splitCode]
    split
    · rfl
    · simpa using ih

theorem convertLinesF_length :
    ∀ f ls, ls.length ≤ f →
      (convertLinesF f ls).length =
        (countUnitsAux false ls).1 + (countUnitsAux false ls).2 := by
  intro f
  induction f with
  | zero =>
    intro ls hf
    have : ls = [] := List.length_eq_zero.mp (Nat.le_zero.mp hf)
    subst this
    simp [convertLinesF, countUnitsAux]
  | succ f ih =>
    intro ls hf
    cases ls with
    | nil => simp [convertLinesF, countUnitsAux]
    | cons l tail =>
      have ht : tail.length ≤ f := by simpa using hf
      have hs : (splitCode tail).2.length ≤ f := le_trans (splitCode_snd_length_le tail) ht
      rw [convertLinesF_cons]
      by_cases hb : pyStrip l = []
      · rw [if_pos hb, ih tail ht]
        simp [countUnitsAux, hb]
      · by_cases hfn : isPre bt3 (pyStrip l) = true
        · rw [if_neg hb, if_pos hfn]
          simp only [List.length_cons]
          rw [ih _ hs]
          have hc : countUnitsAux false (l :: tail) =
              ((countUnitsAux true tail).1, (countUnitsAux true tail).2 + 1) := by
            simp [countUnitsAux, hb, hfn]
          rw [hc, countUnitsAux_true]
          omega
        · rw [if_neg hb, if_neg (by simp [hfn])]
          simp only [List.length_cons]
          rw [ih tail ht]
          have hc : countUnitsAux false (l :: tail) =
              ((countUnitsAux false tail).1 + 1, (countUnitsAux false tail).2) := by
            simp [countUnitsAux, hb, hfn]
          rw [hc]
          omega

/-- Claim C1: `convert_markdown_to_notion_blocks` is total (it is a plain
Lean function, so for every input string it terminates and can raise no
exception), and the number of blocks returned equals the number of
non-blank lines lying outside fenced code regions plus the number of
fenced code blocks; each fence, closed or unclosed at end of input,
contributes exactly one block (`countUnitsAux` scans the lines once with
an inside-a-fence flag and counts exactly these two quantities). -/
theorem c1_convert_length (s : String) :
    (convert_markdown_to_notion_blocks s).length =
      (countUnitsAux false (splitNL s.data)).1 +
        (countUnitsAux false (splitNL s.data)).2 :=
  convertLinesF_length _ _ le_rfl

/-- Claim C8: the line "# A" converts to a heading-1 block and "### A"
to a heading-3 block, while "#### A" is not converted to a heading block
of any level and instead falls through to a paragraph block (only 1 to 3
leading hash characters are recognized as a heading). -/
theorem c8_heading_levels :
    convert_markdown_to_notion_blocks "# A" = [Block.heading 1 [Span.plain ['A']]] ∧
    convert_markdown_to_notion_blocks "### A" = [Block.heading 3 [Span.plain ['A']]] ∧
    convert_markdown_to_notion_blocks "#### A" =
      [Block.paragraph [Span.plain "#### A".data]] := by
  refine ⟨?_, ?_, ?_⟩ <;> decide

/-- Claim C7: a line whose stripped form starts with "```" opens a fenced
code block: the stripped text after the fence is the declared language
(`fenceBlock` replaces it by the literal label "plain text" when empty),
the following original lines are captured verbatim until a line whose
trimmed form starts with "```" or end of input (`splitCode`), a found
closing fence is skipped, and exactly one code block is emitted whose raw
text is the captured lines joined by newline; in particular
"```python\nprint(1)\nprint(2)\n```" yields exactly one code block with
language "python" and raw text "print(1)\nprint(2)". -/
theorem c7_code_fence (l : List Char) (ls : List (List Char))
    (h : isPre bt3 (pyStrip l) = true) :
    convertLines (l :: ls) =
      Block.code
        (if pyStrip ((pyStrip l).drop 3) = [] then plainTextL
         else pyStrip ((pyStrip l).drop 3))
        (joinNL (splitCode ls).1) :: convertLines (splitCode ls).2 ∧
    convert_markdown_to_notion_blocks "```python\nprint(1)\nprint(2)\n```" =
      [Block.code "python".data "print(1)\nprint(2)".data] := by
  constructor
  · have hb : pyStrip l ≠ [] := by
      obtain ⟨t, ht⟩ := isPre_bt3_head _ h
      rw [ht]; simp
    rw [convertLines_cons, if_neg hb, if_pos h]
    rfl
  · decide

/-- Witness for C7: the theorem applied to the fence line "```" with no
following lines (empty language, unclosed fence). -/
theorem c7_code_fence_witness :
    isPre bt3 (pyStrip "```".data) = true ∧
    convertLines ("```".data :: []) =
      Block.code
        (if pyStrip ((pyStrip "```".data).drop 3) = [] then plainTextL
         else pyStrip ((pyStrip "```".data).drop 3))
        (joinNL (splitCode ([] : List (List Char))).1) ::
        convertLines (splitCode ([] : List (List Char))).2 :=
  ⟨by decide, (c7_code_fence "```".data [] (by decide)).1⟩

theorem tokensFlatten_pre (pre : List Char) :
    tokensFlatten (if pre = [] then [] else [.raw pre]) = pre := by
  by_cases hp : pre = [] <;> simp [hp, tokensFlatten, tokFlatten]

/-- The `finditer` scan covers the input: re-concatenating the raw gaps
and the matches (with their delimiters) reproduces the text. -/
theorem scanTokF_flatten :
    ∀ f pre cs, cs.length ≤ f → tokensFlatten (scanTokF f pre cs) = pre ++ cs := by
  intro f
  induction f with
  | zero =>
    intro pre cs hf
    have : cs = [] := List.length_eq_zero.mp (Nat.le_zero.mp hf)
    subst this
    simpa using tokensFlatten_pre pre
  | succ f ih =>
    intro pre cs hf
    cases cs with
    | nil => simpa using tokensFlatten_pre pre
    | cons c rest =>
      rw [scanTokF]
      by_cases h1 : c = '*' ∧ rest.head? = some '*'
      · rw [if_pos h1]
        obtain ⟨rfl, hh⟩ := h1
        cases rest with
        | nil => simp at hh
        | cons e rest' =>
          simp only [List.head?_cons, Option.some.injEq] at hh
          subst hh
          simp only [List.tail_cons]
          cases hfc : findClose '*' rest' with
          | none =>
            rw [ih (pre ++ ['*']) ('*' :: rest') (by simpa using hf)]
            simp
          | some p =>
            obtain ⟨inner, after⟩ := p
            have heq := findClose_eq '*' rest' inner after hfc
            have hlen : after.length ≤ f := by
              rw [heq] at hf; simp at hf; omega
            simp only [tokensFlatten, List.flatMap_append, List.flatMap_cons]
            have e1 : (scanTokF f [] after).flatMap tokFlatten = after := by
              simpa [tokensFlatten] using ih [] after hlen
            rw [show ∀ ts, ts.flatMap tokFlatten = tokensFlatten ts from fun _ => rfl,
              tokensFlatten_pre, e1]
            simp [tokFlatten, heq]
      · rw [if_neg h1]
        by_cases h2 : c = '_' ∧ rest.head? = some '_'
        · rw [if_pos h2]
          obtain ⟨rfl, hh⟩ := h2
          cases rest with
          | nil => simp at hh
          | cons e rest' =>
            simp only [List.head?_cons, Option.some.injEq] at hh
            subst hh
            simp only [List.tail_cons]
            cases hfc : findClose '_' rest' with
            | none =>
              rw [ih (pre ++ ['_']) ('_' :: rest') (by simpa using hf)]
              simp
            | some p =>
              obtain ⟨inner, after⟩ := p
              have heq := findClose_eq '_' rest' inner after hfc
              have hlen : after.length ≤ f := by
                rw [heq] at hf; simp at hf; omega
              simp only [tokensFlatten, List.flatMap_append, List.flatMap_cons]
              have e1 : (scanTokF f [] after).flatMap tokFlatten = after := by
                simpa [tokensFlatten] using ih [] after hlen
              rw [show ∀ ts, ts.flatMap tokFlatten = tokensFlatten ts from fun _ => rfl,
                tokensFlatten_pre, e1]
              simp [tokFlatten, heq]
        · rw [if_neg h2]
          rw [ih (pre ++ [c]) rest (by simpa using hf)]
          simp

/-- A scan with no bold token found no match: the whole text is one raw
gap (or nothing when the text is empty). -/
theorem scanTokF_noBold :
    ∀ f pre cs, cs.length ≤ f → (∀ t ∈ scanTokF f pre cs, t.isBolded = false) →
      scanTokF f pre cs = if pre ++ cs = [] then [] else [.raw (pre ++ cs)] := by
  intro f
  induction f with
  | zero =>
    intro pre cs hf _
    have : cs = [] := List.length_eq_zero.mp (Nat.le_zero.mp hf)
    subst this
    by_cases hp : pre = [] <;> simp [scanTokF, hp]
  | succ f ih =>
    intro pre cs hf hnb
    cases cs with
    | nil => by_cases hp : pre = [] <;> simp [scanTokF, hp]
    | cons c rest =>
      rw [scanTokF] at hnb ⊢
      by_cases h1 : c = '*' ∧ rest.head? = some '*'
      · rw [if_pos h1] at hnb ⊢
        cases hfc : findClose '*' rest.tail with
        | none =>
          rw [hfc] at hnb
          rw [ih (pre ++ [c]) rest (by simpa using hf) hnb]
          simp
        | some p =>
          obtain ⟨inner, after⟩ := p
          rw [hfc] at hnb
          have := hnb (.bolded '*' inner) (by simp)
          simp [Tok.isBolded] at this
      · rw [if_neg h1] at hnb ⊢
        by_cases h2 : c = '_' ∧ rest.head? = some '_'
        · rw [if_pos h2] at hnb ⊢
          cases hfc : findClose '_' rest.tail with
          | none =>
            rw [hfc] at hnb
            rw [ih (pre ++ [c]) rest (by simpa using hf) hnb]
            simp
          | some p =>
            obtain ⟨inner, after⟩ := p
            rw [hfc] at hnb
            have := hnb (.bolded '_' inner) (by simp)
            simp [Tok.isBolded] at this
        · rw [if_neg h2] at hnb ⊢
          rw [ih (pre ++ [c]) rest (by simpa using hf) hnb]
          simp

/-- Concatenating the span texts of a token list's spans drops exactly
the matched delimiter pairs. -/
theorem spanConcat_tokSpans (ts : List Tok) :
    spanConcat (ts.flatMap tokSpans) = tokensStrip ts := by
  induction ts with
  | nil => simp [spanConcat, tokensStrip]
  | cons t ts ih =>
    cases t <;>
      simpa [spanConcat, tokensStrip, tokSpans, tokStrip] using ih

/-- Each token contributes exactly one span, so the span list is empty
only for an empty token list. -/
theorem flatMap_tokSpans_eq_nil (ts : List Tok) (h : ts.flatMap tokSpans = []) :
    ts = [] := by
  cases ts with
  | nil => rfl
  | cons t ts => cases t <;> simp [tokSpans] at h

/-- Re-inserting each bold token's matched delimiter around the bold
spans rebuilds the flattened token text. -/
theorem reinsertBold_tokSpans (ts : List Tok) :
    reinsertBold (boldDelims ts) (ts.flatMap tokSpans) = tokensFlatten ts := by
  induction ts with
  | nil => simp [reinsertBold, boldDelims, tokensFlatten]
  | cons t ts ih =>
    cases t with
    | raw x =>
      simpa [boldDelims, tokSpans, tokensFlatten, tokFlatten, reinsertBold,
        List.filterMap_cons] using ih
    | bolded d i =>
      simpa [boldDelims, tokSpans, tokensFlatten, tokFlatten, reinsertBold,
        List.filterMap_cons] using ih

/-- Every bold token of a scan carries one of the two source delimiters. -/
theorem scanTokF_delims :
    ∀ f pre cs d i, Tok.bolded d i ∈ scanTokF f pre cs → d = '*' ∨ d = '_' := by
  intro f
  induction f with
  | zero =>
    intro pre cs d i h
    cases cs <;> by_cases hp : pre = [] <;> simp [scanTokF, hp] at h
  | succ f ih =>
    intro pre cs d i h
    cases cs with
    | nil => by_cases hp : pre = [] <;> simp [scanTokF, hp] at h
    | cons c rest =>
      rw [scanTokF] at h
      by_cases h1 : c = '*' ∧ rest.head? = some '*'
      · rw [if_pos h1] at h
        cases hfc : findClose '*' rest.tail with
        | none => rw [hfc] at h; exact ih _ _ _ _ h
        | some p =>
          obtain ⟨inner, after⟩ := p
          rw [hfc] at h
          rcases List.mem_append.mp h with hl | hr
          · by_cases hp : pre = [] <;> simp [hp] at hl
          · rcases List.mem_cons.mp hr with he | ht
            · exact Or.inl (Tok.bolded.inj he).1
            · exact ih _ _ _ _ ht
      · rw [if_neg h1] at h
        by_cases h2 : c = '_' ∧ rest.head? = some '_'
        · rw [if_pos h2] at h
          cases hfc : findClose '_' rest.tail with
          | none => rw [hfc] at h; exact ih _ _ _ _ h
          | some p =>
            obtain ⟨inner, after⟩ := p
            rw [hfc] at h
            rcases List.mem_append.mp h with hl | hr
            · by_cases hp : pre = [] <;> simp [hp] at hl
            · rcases List.mem_cons.mp hr with he | ht
              · exact Or.inr (Tok.bolded.inj he).1
              · exact ih _ _ _ _ ht
        · rw [if_neg h2] at h
          exact ih _ _ _ _ h

/-- Unfolding equation of `process_inline_formatting`. -/
theorem process_inline_eq (cs : List Char) :
    process_inline_formatting cs =
      if (scanTok cs).flatMap tokSpans = [] then [Span.plain cs]
      else (scanTok cs).flatMap tokSpans := rfl

/-- Claim C3: concatenating the text fields of the spans returned by
`process_inline_formatting`, in order, reproduces the input with exactly
the matched bold delimiter pairs removed and nothing else changed (the
span concatenation equals the token scan with delimiters of matches
dropped, and the same scan with the matched delimiters kept reproduces
the input verbatim); when no pair matches, the output is exactly one
non-bold span holding the input verbatim, even for the empty input. -/
theorem c3_span_concat (s : String) :
    spanConcat (process_inline_formatting s.data) = tokensStrip (scanTok s.data) ∧
    tokensFlatten (scanTok s.data) = s.data ∧
    ((∀ t ∈ scanTok s.data, t.isBolded = false) →
      process_inline_formatting s.data = [Span.plain s.data]) := by
  have hfl : tokensFlatten (scanTok s.data) = s.data :=
    scanTokF_flatten s.data.length [] s.data le_rfl
  refine ⟨?_, hfl, ?_⟩
  · by_cases hr : (scanTok s.data).flatMap tokSpans = []
    · have hts : scanTok s.data = [] := flatMap_tokSpans_eq_nil _ hr
      have hd : s.data = [] := by
        rw [hts] at hfl
        simpa [tokensFlatten] using hfl.symm
      rw [process_inline_eq, if_pos hr, hts, hd]
      simp [spanConcat, tokensStrip]
    · rw [process_inline_eq, if_neg hr]
      exact spanConcat_tokSpans _
  · intro hnb
    have hsc : scanTok s.data =
        if [] ++ s.data = [] then [] else [.raw ([] ++ s.data)] :=
      scanTokF_noBold s.data.length [] s.data le_rfl hnb
    by_cases hd : s.data = []
    · simp only [hd, List.nil_append, if_pos rfl] at hsc
      rw [process_inline_eq, hd, hsc]
      simp
    · simp only [List.nil_append, if_neg hd] at hsc
      rw [process_inline_eq, hsc]
      simp [tokSpans, hd]

/-- Witness for C3: the theorem applied to "no bold here", whose scan has
no bold token; the output is the single verbatim plain span. -/
theorem c3_span_concat_witness :
    spanConcat (process_inline_formatting "no bold here".data) =
      tokensStrip (scanTok "no bold here".data) ∧
    process_inline_formatting "no bold here".data =
      [Span.plain "no bold here".data] :=
  ⟨(c3_span_concat "no bold here").1,
   (c3_span_concat "no bold here").2.2 (by decide)⟩

/-- Claim C9: for every text, re-inserting the matched bold markers
around the bold spans of `process_inline_formatting text` and
concatenating all span texts in order reproduces the original text
byte-for-byte (each bold span consumes one marker from the delimiter
list, each marker being one of the two bold delimiters); in particular
this holds for every text containing zero or balanced `**`/`__` pairs,
as the claim states. -/
theorem c9_reinsert_roundtrip (s : String) :
    ∃ ds : List Char, (∀ d ∈ ds, d = '*' ∨ d = '_') ∧
      reinsertBold ds (process_inline_formatting s.data) = s.data := by
  refine ⟨boldDelims (scanTok s.data), ?_, ?_⟩
  · intro d hd
    simp only [boldDelims, List.mem_filterMap] at hd
    obtain ⟨t, ht, he⟩ := hd
    cases t with
    | raw x => simp at he
    | bolded e i =>
      simp only [Option.some.injEq] at he
      subst he
      exact scanTokF_delims s.data.length [] s.data _ _ ht
  · have hfl : tokensFlatten (scanTok s.data) = s.data :=
      scanTokF_flatten s.data.length [] s.data le_rfl
    by_cases hr : (scanTok s.data).flatMap tokSpans = []
    · have hts : scanTok s.data = [] := flatMap_tokSpans_eq_nil _ hr
      have hd : s.data = [] := by
        rw [hts] at hfl
        simpa [tokensFlatten] using hfl.symm
      rw [process_inline_eq, if_pos hr, hts, hd]
      simp [reinsertBold, boldDelims]
    · rw [process_inline_eq, if_neg hr, reinsertBold_tokSpans, hfl]

/-- Python `str.split()` produces no empty words. -/
theorem pySplitGo_mem_ne_nil : ∀ s acc, ∀ w ∈ pySplitGo acc s, w ≠ [] := by
  intro s
  induction s with
  | nil =>
    intro acc w hw
    by_cases ha : acc = []
    · simp [pySplitGo, ha] at hw
    · simp only [pySplitGo, if_neg ha, List.mem_singleton] at hw
      subst hw
      simpa using ha
  | cons c rest ih =>
    intro acc w hw
    rw [pySplitGo] at hw
    by_cases hc : isWs c = true
    · rw [if_pos hc] at hw
      by_cases ha : acc = []
      · rw [if_pos ha] at hw
        exact ih [] w hw
      · rw [if_neg ha] at hw
        rcases List.mem_cons.mp hw with he | ht
        · subst he; simpa using ha
        · exact ih [] w ht
    · rw [if_neg hc] at hw
      exact ih (c :: acc) w hw

theorem joinSpace_ne_nil (a : List Char) (l : List (List Char)) (ha : a ≠ []) :
    joinSpace (a :: l) ≠ [] := by
  cases l with
  | nil => simpa [joinSpace] using ha
  | cons b bs => simp [joinSpace]

theorem pyCapitalize_ne_nil (w : List Char) (h : w ≠ []) : pyCapitalize w ≠ [] := by
  cases w with
  | nil => exact absurd rfl h
  | cons c cs => simp [pyCapitalize]

theorem capWord_zero (n : Nat) (w : List Char) : capWord n 0 w = pyCapitalize w := by
  simp [capWord]

/-- A non-empty title is normalized to a non-empty title. -/
theorem capitalize_ne_nil (t : List Char) (h : t ≠ []) : _capitalize_title t ≠ [] := by
  rw [_capitalize_title, if_neg h]
  by_cases hw : pySplit t = []
  · rw [if_pos hw]; exact h
  · rw [if_neg hw]
    cases hsp : pySplit t with
    | nil => exact absurd hsp hw
    | cons w ws =>
      have hwne : w ≠ [] := pySplitGo_mem_ne_nil t [] w (by rw [pySplit] at hsp; rw [hsp]; simp)
      have hj : joinSpace ((w :: ws).mapIdx fun i x => capWord (w :: ws).length i x) ≠ [] := by
        rw [List.mapIdx_cons]
        exact joinSpace_ne_nil _ _ (capWord_zero _ w ▸ pyCapitalize_ne_nil w hwne)
      dsimp only
      by_cases he : endsWithEllipsis t = true
      · rw [if_pos he]
        simp [ellipsisL]
      · rw [if_neg he]
        exact hj

theorem consHead_ne_nil (c : Char) (l : List (List Char)) : consHead c l ≠ [] := by
  cases l <;> simp [consHead]

/-- Python `re.split` always returns at least one piece. -/
theorem sentSplitGo_ne_nil : ∀ s sep prev, sentSplitGo sep prev s ≠ [] := by
  intro s
  induction s with
  | nil => intro sep prev; simp [sentSplitGo]
  | cons c rest ih =>
    intro sep prev
    rw [sentSplitGo]
    by_cases hsep : sep = true
    · rw [if_pos hsep]
      by_cases hc : isWs c = true
      · rw [if_pos hc]; exact ih true c
      · rw [if_neg hc]; exact consHead_ne_nil c _
    · rw [if_neg hsep]
      by_cases hb : isWs c = true ∧ (prev = '.' ∨ prev = '!' ∨ prev = '?')
      · rw [if_pos hb]; simp
      · rw [if_neg hb]; exact consHead_ne_nil c _

theorem sentSplit_ne_nil (t : List Char) : sentSplit t ≠ [] := by
  cases t with
  | nil => simp [sentSplit]
  | cons c rest => exact consHead_ne_nil c _

/-- Claim C2 counterexample: with an empty platform title and the
non-empty summary "hello world" (which contains no Overview section, no
labeled pattern and no level-2 heading, so extraction fails), the final
title is the empty string although one of the two inputs is non-empty —
refuting "produces a non-empty final title whenever at least one of the
two inputs is non-empty". -/
theorem c2_nonempty_counterexample :
    inferTitle [] "hello world".data = [] ∧ "hello world".data ≠ [] := by
  exact ⟨by decide, by decide⟩

/-- Claim C2 (amended): the final title is non-empty whenever the
platform title is non-empty; when the platform title is empty, the final
title is the extracted title when extraction yields a non-empty string,
and the empty string otherwise (extraction failing or yielding the empty
title). -/
theorem c2_title_amended (t s : List Char) :
    (t ≠ [] → inferTitle t s ≠ []) ∧
    (t = [] → inferTitle t s =
      (match _extract_title_from_summary s with
       | some x => if x ≠ [] then x else []
       | none => [])) := by
  constructor
  · intro ht
    rw [inferTitle]
    by_cases hu : usesPlatformTitle t = true
    · rw [if_pos hu]
      by_cases ha : anyUpperTail t = true
      · rw [if_neg (by simp [ha])]
        exact ht
      · simp only [Bool.not_eq_true] at ha
        rw [if_pos (by simp [ha])]
        exact capitalize_ne_nil t ht
    · rw [if_neg hu]
      cases he : _extract_title_from_summary s with
      | none => exact ht
      | some x =>
        by_cases hx : x = []
        · simp [hx, ht]
        · simp [hx]
  · rintro rfl
    rw [inferTitle, if_neg (by simp [usesPlatformTitle])]

/-- Witness for the amended C2: a non-empty platform title gives a
non-empty final title, and with an empty platform title the final title
follows the extraction result. -/
theorem c2_title_amended_witness :
    inferTitle "Real Title".data "".data ≠ [] ∧
    inferTitle [] "hello world".data =
      (match _extract_title_from_summary "hello world".data with
       | some x => if x ≠ [] then x else []
       | none => []) :=
  ⟨(c2_title_amended "Real Title".data "".data).1 (by decide),
   (c2_title_amended [] "hello world".data).2 rfl⟩

/-- Claim C4: for every non-empty platform title, step 1 of title
inference bypasses the platform title and attempts extraction exactly
when the title matches the generic fallback shape (the "YouTube Summary
- <id>" prefix produced by the metadata fallback of `get_video_info`): a
generic title is never chosen by step 1 — the result comes from the
extraction branch (which keeps the caller's placeholder only when
extraction fails) — and a non-generic non-empty title is used by step 1
without attempting extraction. -/
theorem c4_generic_title (t s : List Char) (h : t ≠ []) :
    (usesPlatformTitle t = false ↔ isPre genericPrefix t = true) ∧
    (isPre genericPrefix t = true →
      inferTitle t s =
        (match _extract_title_from_summary s with
         | some x => if x ≠ [] then x else t
         | none => t)) ∧
    (isPre genericPrefix t = false →
      inferTitle t s = (if anyUpperTail t then t else _capitalize_title t)) := by
  refine ⟨?_, ?_, ?_⟩
  · simp [usesPlatformTitle, h]
  · intro hg
    rw [inferTitle, if_neg (by simp [usesPlatformTitle, hg])]
  · intro hg
    rw [inferTitle, if_pos (by simp [usesPlatformTitle, h, hg])]
    by_cases ha : anyUpperTail t = true
    · simp [ha]
    · simp only [Bool.not_eq_true] at ha
      simp [ha]

/-- Witness for C4: the generic title "YouTube Summary - abc" attempts
extraction (here from the empty summary, where extraction fails and the
placeholder is retained). -/
theorem c4_generic_title_witness :
    (usesPlatformTitle "YouTube Summary - abc".data = false ↔
      isPre genericPrefix "YouTube Summary - abc".data = true) ∧
    inferTitle "YouTube Summary - abc".data [] =
      (match _extract_title_from_summary [] with
       | some x => if x ≠ [] then x else "YouTube Summary - abc".data
       | none => "YouTube Summary - abc".data) :=
  ⟨(c4_generic_title "YouTube Summary - abc".data [] (by decide)).1,
   (c4_generic_title "YouTube Summary - abc".data [] (by decide)).2.1 (by decide)⟩

/-- Claim C5: title extraction signals failure with the dedicated value
`none` ("no title found"), distinct from a valid empty-string title
`some []` — the summary "## Overview\n\n" really extracts the
empty-string title — and whenever extraction fails in the branch that
consults it (platform title empty or generic), the record's title field
is left unchanged, retaining the caller's placeholder. -/
theorem c5_extraction_failure (t s : List Char)
    (hb : t = [] ∨ isPre genericPrefix t = true)
    (hf : _extract_title_from_summary s = none) :
    inferTitle t s = t ∧
    _extract_title_from_summary "## Overview\n\n".data = some [] ∧
    (some [] : Option (List Char)) ≠ none := by
  refine ⟨?_, by decide, by simp⟩
  have hu : usesPlatformTitle t = false := by
    cases hb with
    | inl h => simp [usesPlatformTitle, h]
    | inr h => simp [usesPlatformTitle, h]
  rw [inferTitle, if_neg (by simp [hu]), hf]

/-- Witness for C5: extraction fails on "hello world" and the empty
placeholder title is kept unchanged. -/
theorem c5_extraction_failure_witness :
    inferTitle [] "hello world".data = [] ∧
    _extract_title_from_summary "## Overview\n\n".data = some [] :=
  ⟨(c5_extraction_failure [] "hello world".data (Or.inl rfl) (by decide)).1,
   (c5_extraction_failure [] "hello world".data (Or.inl rfl) (by decide)).2.1⟩

/-- Claim C6 counterexample: on the whitespace-only title " " the code
returns the title unchanged, while the claim's split-on-whitespace and
rejoin-with-single-spaces normalization produces the empty string, so
`_capitalize_title` does not implement the claimed normalization on that
input. -/
theorem c6_capitalize_counterexample :
    _capitalize_title " ".data = " ".data ∧
    specTitleCase " ".data = [] ∧
    _capitalize_title " ".data ≠ specTitleCase " ".data := by
  exact ⟨by decide, by decide, by decide⟩

/-- Claim C6 (amended): `_capitalize_title` implements the claimed Title
Case Normalization (empty input unchanged; split on whitespace, rejoin
with single spaces; first and last words capitalized; interior minor
words not starting with punctuation lowercased, other interior words
capitalized; a trailing "..." restored after stripping trailing periods)
on every input except a non-empty whitespace-only title, which it
returns unchanged; in particular "how to bake bread" normalizes to "How
to Bake Bread". -/
theorem c6_capitalize_amended (t : List Char) :
    _capitalize_title t = (if t ≠ [] ∧ pySplit t = [] then t else specTitleCase t) ∧
    _capitalize_title "how to bake bread".data = "How to Bake Bread".data := by
  constructor
  · by_cases h0 : t = []
    · simp [h0, _capitalize_title, specTitleCase]
    · by_cases hw : pySplit t = []
      · rw [_capitalize_title, if_neg h0, if_pos hw, if_pos ⟨h0, hw⟩]
      · have hrhs : (if t ≠ [] ∧ pySplit t = [] then t else specTitleCase t) = specTitleCase t :=
          if_neg (fun hc => hw hc.2)
        rw [hrhs, _capitalize_title, if_neg h0, specTitleCase, if_neg h0]
        dsimp only
        rw [if_neg hw]
  · decide

/-- Unfolding equation of `overviewBranch`. -/
theorem overviewBranch_eq (summary g : List Char) :
    overviewBranch summary g =
      (match tryPatterns (pyStrip g) with
       | some m => some (_capitalize_title (pyStrip m))
       | none =>
         match sentSplit (pyStrip g) with
         | s0 :: _ => some (sentenceTitle s0)
         | [] => extractFallback summary) := rfl

/-- Claim C10: whenever the Overview-section regex matches,
`_extract_title_from_summary` returns a string and never the failure
value `none`; the whole-summary pattern scan and the level-2-heading
fallback (`extractFallback`) are reached only when no Overview section
matched (the result is always the overview branch's); and a matched
Overview section whose body strips to nothing usable yields the empty
string rather than the failure value. -/
theorem c10_overview_total (s g : List Char) (h : findOverview s = some g) :
    (∃ x, _extract_title_from_summary s = some x) ∧
    _extract_title_from_summary s = overviewBranch s g ∧
    _extract_title_from_summary "## Overview\n\n".data = some [] := by
  have he : _extract_title_from_summary s = overviewBranch s g := by
    rw [_extract_title_from_summary, h]
  refine ⟨?_, he, by decide⟩
  rw [he, overviewBranch_eq]
  cases hp : tryPatterns (pyStrip g) with
  | some m => exact ⟨_, rfl⟩
  | none =>
    cases hs : sentSplit (pyStrip g) with
    | nil => exact absurd hs (sentSplit_ne_nil _)
    | cons s0 rest => exact ⟨_, rfl⟩

/-- Witness for C10: the summary "## Overview\n\n" matches the Overview
regex (with group "\n") and extraction returns a value. -/
theorem c10_overview_total_witness :
    findOverview "## Overview\n\n".data = some ['\n'] ∧
    (∃ x, _extract_title_from_summary "## Overview\n\n".data = some x) :=
  ⟨by decide, (c10_overview_total "## Overview\n\n".data ['\n'] (by decide)).1⟩
